import Mathlib

/-!
Shallow embedding of the mini-html language server's validation engine
(`server/src/server.ts`): the functions `validateTextDocument`,
`validateHeadContent`, `validateBodyContent` and `validateNesting`.

Document text is modelled as `List Char`.  The JavaScript regular
expressions used by the source are specific enough to be modelled as
deterministic anchored matchers together with a JS-style global scanner
(leftmost match, continue after each match).  The matchers below each
embed one of the source's regex literals:

  open tag   `<\s*NAME[^>]*>`                          -> matchOpenAt
  close tag  `<\s*\/\s*NAME\s*>`                       -> matchCloseAt
  tag pair   `<\s*NAME[^>]*>([\s\S]*?)<\s*\/\s*NAME\s*>` (lazy inner)
                                                       -> pairMatchAt
  tag token  `<\s*\/?\s*([a-zA-Z][a-zA-Z0-9]*)[^>]*\/?\s*>`
                                                       -> matchTokenAt
  name probe `<\s*\/?\s*([a-zA-Z][a-zA-Z0-9]*)`        -> nameAt

For these patterns greedy/lazy backtracking collapses to the
deterministic readings implemented here: `\s*` before a letter-initial
name is forced maximal, `[^>]*` runs exactly to the first `>`, and the
lazy `([\s\S]*?)` group selects the first position at which the closing
tag matches.  The `i` flag is modelled by lower-casing via
`Char.toLower` (the source only matches ASCII tag names).
-/

/-- Position in a document: zero-based line and character, as in the
LSP `Position` record built by the source. -/
structure DiagPos where
  line : Nat
  character : Nat
deriving DecidableEq, Repr

/-- Range of a diagnostic; the source's `range.start` / `range.end`
(`end` is a Lean keyword, hence `stop`). -/
structure DiagRange where
  start : DiagPos
  stop : DiagPos
deriving DecidableEq, Repr

/-- Diagnostic as assembled by the source; `severity` is the LSP wire
number (`DiagnosticSeverity.Error = 1`, the only severity used). -/
structure Diagnostic where
  severity : Nat
  range : DiagRange
  message : String
deriving DecidableEq, Repr

/-- JavaScript's `\s` character class (WhiteSpace plus LineTerminator),
which is also the set removed by `String.prototype.trim`. -/
def jsWS (c : Char) : Bool :=
  c = ' ' || c = '\t' || c = '\n' || c.toNat = 0x0B || c.toNat = 0x0C || c = '\r' ||
  c.toNat = 0xA0 || c.toNat = 0x1680 || (0x2000 ≤ c.toNat && c.toNat ≤ 0x200A) ||
  c.toNat = 0x2028 || c.toNat = 0x2029 || c.toNat = 0x202F || c.toNat = 0x205F ||
  c.toNat = 0x3000 || c.toNat = 0xFEFF

/-- Regex class `[a-zA-Z]`. -/
def isAlphaRx (c : Char) : Bool :=
  ('a' ≤ c && c ≤ 'z') || ('A' ≤ c && c ≤ 'Z')

/-- Regex class `[a-zA-Z0-9]`. -/
def isAlnumRx (c : Char) : Bool :=
  isAlphaRx c || ('0' ≤ c && c ≤ '9')

/-- Length of the maximal `\s*` run at the head of the list. -/
def wsCount : List Char → Nat
  | [] => 0
  | c :: t => if jsWS c then wsCount t + 1 else 0

/-- Index of the first `>`; `[^>]*>` consumes exactly `k + 1`
characters when this returns `some k`. -/
def findGt : List Char → Option Nat
  | [] => none
  | c :: t => if c = '>' then some 0 else (findGt t).map (· + 1)

/-- Case-insensitive literal prefix test (`i` flag): `pat` is given in
lower case and is compared against the lower-cased input. -/
def ciMatch : List Char → List Char → Bool
  | [], _ => true
  | _ :: _, [] => false
  | p :: ps, c :: cs => (Char.toLower c = p) && ciMatch ps cs

/-- JavaScript `String.prototype.trim`. -/
def jsTrim (s : List Char) : List Char :=
  ((s.dropWhile jsWS).reverse.dropWhile jsWS).reverse

/-- JavaScript `String.prototype.split('\n')`. -/
def splitLines : List Char → List (List Char)
  | [] => [[]]
  | c :: t =>
    match splitLines t with
    | [] => [[]]
    | l :: ls => if c = '\n' then [] :: l :: ls else (c :: l) :: ls

/-- Substring of length `len` starting at `pos` (JS `substr`-style view
used to recover `match[0]` / `match[1]` from scanner offsets). -/
def extract (s : List Char) (pos len : Nat) : List Char :=
  (s.drop pos).take len

/-- First position at or after the current one where the anchored
matcher `m` succeeds; returns the absolute position (the running index
`i`) and the matcher's result.  This is the leftmost-match rule shared
by `RegExp.exec`, `String.match` and `String.indexOf`. -/
def firstMatchPos {α : Type} (m : List Char → Option α) : List Char → Nat → Option (Nat × α)
  | [], i =>
    match m [] with
    | some a => some (i, a)
    | none => none
  | c :: t, i =>
    match m (c :: t) with
    | some a => some (i, a)
    | none => firstMatchPos m t (i + 1)

/-- JavaScript `haystack.indexOf(pat)` (case-sensitive literal search),
`none` standing for `-1`. -/
def indexOfL (pat s : List Char) : Option Nat :=
  (firstMatchPos (fun t => if pat.isPrefixOf t then some () else none) s 0).map (·.1)

/-- JavaScript `s.includes(pat)`. -/
def containsSub (pat s : List Char) : Bool :=
  (indexOfL pat s).isSome

/-- Line of a character offset: the source computes
`text.substring(0, errorPos).split('\n').length - 1`. -/
def lineOf (text : List Char) (pos : Nat) : Nat :=
  (splitLines (text.take pos)).length - 1

/-- Anchored match of `<\s*\/?\s*([a-zA-Z][a-zA-Z0-9]*)`: consumed
length up to the end of the captured name, and the name itself. -/
def nameAt (s : List Char) : Option (Nat × List Char) :=
  match s with
  | '<' :: r =>
    let w := wsCount r
    let r1 := r.drop w
    let sl := match r1 with
              | '/' :: _ => 1
              | _ => 0
    let r2 := r1.drop sl
    let w2 := wsCount r2
    match r2.drop w2 with
    | c :: t =>
      if isAlphaRx c then
        let nm := c :: t.takeWhile isAlnumRx
        some (1 + w + sl + w2 + nm.length, nm)
      else none
    | [] => none
  | _ => none

/-- Anchored match of the generic tag-token regex
`<\s*\/?\s*([a-zA-Z][a-zA-Z0-9]*)[^>]*\/?\s*>`: total length (up to and
including the first `>` after the name) and the captured tag name. -/
def matchTokenAt (s : List Char) : Option (Nat × List Char) :=
  match nameAt s with
  | some (k, nm) =>
    match findGt (s.drop k) with
    | some j => some (k + j + 1, nm)
    | none => none
  | none => none

/-- First tag-name capture anywhere in the string: the source's
`element.match(/<\s*\/?\s*([a-zA-Z][a-zA-Z0-9]*)/i)` giving
`tagName[1]` (or `null`). -/
def tokenName (e : List Char) : Option (List Char) :=
  (firstMatchPos nameAt e 0).map (fun x => x.2.2)

/-- Anchored match of the opening-tag regex `<\s*TAG[^>]*>`; returns
the matched length. -/
def matchOpenAt (tag : List Char) (s : List Char) : Option Nat :=
  match s with
  | '<' :: r =>
    let w := wsCount r
    let r1 := r.drop w
    if ciMatch tag r1 then
      match findGt (r1.drop tag.length) with
      | some k => some (1 + w + tag.length + k + 1)
      | none => none
    else none
  | _ => none

/-- Anchored match of the closing-tag regex `<\s*\/\s*TAG\s*>`; returns
the matched length. -/
def matchCloseAt (tag : List Char) (s : List Char) : Option Nat :=
  match s with
  | '<' :: r =>
    let w := wsCount r
    match r.drop w with
    | '/' :: r2 =>
      let w2 := wsCount r2
      let r3 := r2.drop w2
      if ciMatch tag r3 then
        let r4 := r3.drop tag.length
        let w3 := wsCount r4
        match r4.drop w3 with
        | '>' :: _ => some (1 + w + 1 + w2 + tag.length + w3 + 1)
        | _ => none
      else none
    | _ => none
  | _ => none

/-- Anchored match of the tag-pair regex
`<\s*TAG[^>]*>([\s\S]*?)<\s*\/\s*TAG\s*>`: total length together with
(open-tag length, lazy inner-group length, close-tag length). -/
def pairMatchAt (tag : List Char) (s : List Char) : Option (Nat × Nat × Nat × Nat) :=
  match matchOpenAt tag s with
  | none => none
  | some o =>
    match firstMatchPos (matchCloseAt tag) (s.drop o) 0 with
    | none => none
    | some (j, c) => some (o + j + c, o, j, c)

/-- JS global scan (`g` flag): repeatedly find the leftmost anchored
match, record `(position, length, payload)`, and continue immediately
after it (after a zero-length match, `lastIndex` advances by one; a
match at the very end of the input is recorded and the scan stops).
`fuel` only bounds the loop; `length + 1` is always sufficient. -/
def jsScanF {α : Type} (m : List Char → Option (Nat × α)) : Nat → List Char → Nat → List (Nat × Nat × α)
  | 0, _, _ => []
  | _ + 1, [], i =>
    match m [] with
    | some (len, a) => [(i, len, a)]
    | none => []
  | fuel + 1, c :: t, i =>
    match m (c :: t) with
    | some (len, a) =>
      if len = 0 then
        (i, len, a) :: jsScanF m fuel t (i + 1)
      else
        (i, len, a) :: jsScanF m fuel ((c :: t).drop len) (i + len)
    | none => jsScanF m fuel t (i + 1)

/-- All (non-overlapping, leftmost) tag-pair matches of `tag` in `s`:
entries are `(position, total length, open length, inner length, close
length)`. -/
def tagPairs (tag s : List Char) : List (Nat × Nat × Nat × Nat × Nat) :=
  jsScanF (pairMatchAt tag) (s.length + 1) s 0

/-- All generic tag-token matches in `s`: `(position, length, name)`. -/
def tagTokens (s : List Char) : List (Nat × Nat × List Char) :=
  jsScanF matchTokenAt (s.length + 1) s 0

/-- First tag-pair match in `s` (non-global `String.match` with the
pair regex), used by the source to re-extract `innerContent[1]` from an
already-matched element string. -/
def firstPair (tag s : List Char) : Option (Nat × Nat × Nat × Nat × Nat) :=
  firstMatchPos (pairMatchAt tag) s 0

/-- Inner group of the first tag-pair match of `tag` inside `wm`
(`wm.match(pairRegex)` followed by taking group 1). -/
def pairInnerOf (tag wm : List Char) : Option (List Char) :=
  (firstPair tag wm).map (fun q => extract wm (q.1 + q.2.2.1) q.2.2.2.1)

/-- Tag names used by the source's regex literals. -/
def htmlTag : List Char := "html".data

/-- Tag name `head`. -/
def headTag : List Char := "head".data

/-- Tag name `body`. -/
def bodyTag : List Char := "body".data

/-- Tag name `title`. -/
def titleTag : List Char := "title".data

/-- Tag name `span`. -/
def spanTag : List Char := "span".data

/-- Tag name `div`. -/
def divTag : List Char := "div".data

/-- Literal `'<head'` searched with `indexOf` for rule 2's location. -/
def headLit : List Char := "<head".data

/-- Literal `'<body'` searched with `indexOf` for rule 2's location. -/
def bodyLit : List Char := "<body".data

/-- Literal `'/>'` of the self-closing exemption `element.includes('/>')`. -/
def slashGt : List Char := "/>".data

/-- Message of the rule-1 start violation. -/
def msgStart : String := "Document must start with <html>"

/-- Message of the rule-1 end violation. -/
def msgEnd : String := "Document must end with </html>"

/-- Message of the head cardinality violation (rule 2). -/
def msgHeadCard : String := "HTML must contain exactly one <head> element"

/-- Message of the body cardinality violation (rule 2). -/
def msgBodyCard : String := "HTML must contain exactly one <body> element"

/-- Message of the head containment violation (rule 3). -/
def msgHeadOnly : String := "<head> may contain only <title> or <meta> elements"

/-- Message of the body containment violation (rule 4). -/
def msgBodyOnly : String := "<body> may contain only <div> or <span> elements"

/-- Message of the title text-only violation (rule 5). -/
def msgTitleText : String := "<title> can contain only text"

/-- Message of the span/div nesting violation (rule 6). -/
def msgSpanDiv : String := "<span> cannot contain <div> elements"

/-- Diagnostic located at the first occurrence of the element's exact
text in the full document, spanning column 0 to the element's length
(shared shape of the rule 3/4/5/6 diagnostics).  When `indexOf` would
return `-1`, the source's `substring(0, -1)` yields line 0. -/
def elementDiag (fullText element : List Char) (msg : String) : Diagnostic :=
  let line := match indexOfL element fullText with
              | some p => lineOf fullText p
              | none => 0
  ⟨1, ⟨⟨line, 0⟩, ⟨line, element.length⟩⟩, msg⟩

/-- Rule-2 cardinality diagnostic: located at the line of the first
document-wide occurrence of `lit` (if `lit` occurs in the captured
content; offset 0 otherwise), as a 10-character range at column 0. -/
def cardinalityDiag (fullText content lit : List Char) (msg : String) : Diagnostic :=
  let errorPos := match indexOfL lit content with
                  | some _ => (indexOfL lit fullText).getD 0
                  | none => 0
  let line := lineOf fullText errorPos
  ⟨1, ⟨⟨line, 0⟩, ⟨line, 10⟩⟩, msg⟩

/-- Rule-1 start diagnostic at (0,0)-(0,6). -/
def startDiag : Diagnostic :=
  ⟨1, ⟨⟨0, 0⟩, ⟨0, 6⟩⟩, msgStart⟩

/-- Rule-1 end diagnostic: anchored on the last line, covering its last
7 characters (start column clamped at 0 by `Math.max`; `Nat`
subtraction clamps identically). -/
def endDiag (text : List Char) : Diagnostic :=
  let lines := splitLines text
  let lineLength := (lines.getLastD []).length
  ⟨1, ⟨⟨lines.length - 1, lineLength - 7⟩, ⟨lines.length - 1, lineLength⟩⟩, msgEnd⟩

/-- Rule-1 start check: `text.trim().startsWith('<html>')`. -/
def rule1Start (text : List Char) : List Diagnostic :=
  if "<html>".data.isPrefixOf (jsTrim text) then [] else [startDiag]

/-- Rule-1 end check: `text.trim().endsWith('</html>')`. -/
def rule1End (text : List Char) : List Diagnostic :=
  if "</html>".data.isSuffixOf (jsTrim text) then [] else [endDiag text]

/-- Per-token check of `validateHeadContent`'s loop body: flag names
other than `title`/`meta` unless the token contains `/>`. -/
def headTokenDiag (fullText element : List Char) : Option Diagnostic :=
  match tokenName element with
  | some nm =>
    let name := nm.map Char.toLower
    if name = "title".data ∨ name = "meta".data then none
    else if containsSub slashGt element then none
    else some (elementDiag fullText element msgHeadOnly)
  | none => none

/-- Per-token check of `validateBodyContent`'s loop body: flag names
other than `div`/`span` unless the token contains `/>`. -/
def bodyTokenDiag (fullText element : List Char) : Option Diagnostic :=
  match tokenName element with
  | some nm =>
    let name := nm.map Char.toLower
    if name = "div".data ∨ name = "span".data then none
    else if containsSub slashGt element then none
    else some (elementDiag fullText element msgBodyOnly)
  | none => none

/-- Source `validateHeadContent` (rule 3): scan the matched head string
for tag tokens and flag each disallowed one. -/
def validateHeadContent (headContent fullText : List Char) : List Diagnostic :=
  (tagTokens headContent).filterMap
    (fun e => headTokenDiag fullText (extract headContent e.1 e.2.1))

/-- Rule-5 condition on a title-pair match string: re-extract the inner
group and test `innerContent[1].includes('<')`. -/
def titleMatchBad (tm : List Char) : Bool :=
  match firstPair titleTag tm with
  | some q => containsSub "<".data (extract tm (q.1 + q.2.2.1) q.2.2.2.1)
  | none => false

/-- Rule-6 condition on a span-pair match string: re-extract the inner
group and test it for any `<\s*div[^>]*>` match. -/
def spanMatchBad (sm : List Char) : Bool :=
  match firstPair spanTag sm with
  | some q => (firstMatchPos (matchOpenAt divTag) (extract sm (q.1 + q.2.2.1) q.2.2.2.1) 0).isSome
  | none => false

/-- Rule-5 block of `validateNesting`: one diagnostic per title-pair
match whose inner text contains `<`. -/
def rule5Diags (content fullText : List Char) : List Diagnostic :=
  (tagPairs titleTag content).flatMap
    (fun e =>
      let tm := extract content e.1 e.2.1
      if titleMatchBad tm then [elementDiag fullText tm msgTitleText] else [])

/-- Rule-6 block of `validateNesting`: one diagnostic per span-pair
match whose inner text contains a `div` opening tag. -/
def rule6Diags (content fullText : List Char) : List Diagnostic :=
  (tagPairs spanTag content).flatMap
    (fun e =>
      let sm := extract content e.1 e.2.1
      if spanMatchBad sm then [elementDiag fullText sm msgSpanDiv] else [])

/-- Source `validateNesting` with an explicit recursion bound: rules 5
and 6 on the fragment, then recursion into the inner group of every
`div`-pair and every `span`-pair match.  The unbounded source recursion
terminates because every inner group is strictly shorter than its
fragment; `fuel` greater than the fragment length is always enough
(proved below), so the `fuel = 0` branch is unreachable from
`validateNesting`. -/
def validateNestingF : Nat → List Char → List Char → List String → List Diagnostic
  | 0, _, _, _ => []
  | fuel + 1, content, fullText, context =>
    rule5Diags content fullText ++
    rule6Diags content fullText ++
    ((tagPairs divTag content).flatMap
      (fun e =>
        match pairInnerOf divTag (extract content e.1 e.2.1) with
        | some inner => validateNestingF fuel inner fullText (context ++ ["div"])
        | none => [])) ++
    ((tagPairs spanTag content).flatMap
      (fun e =>
        match pairInnerOf spanTag (extract content e.1 e.2.1) with
        | some inner => validateNestingF fuel inner fullText (context ++ ["span"])
        | none => []))

/-- Source `validateNesting` (rules 5-7). -/
def validateNesting (content fullText : List Char) (context : List String) : List Diagnostic :=
  validateNestingF (content.length + 1) content fullText context

/-- Source `validateBodyContent` (rule 4): flag disallowed tokens in
the matched body string, then validate the nested structure. -/
def validateBodyContent (bodyContent fullText : List Char) : List Diagnostic :=
  (tagTokens bodyContent).filterMap
    (fun e => bodyTokenDiag fullText (extract bodyContent e.1 e.2.1)) ++
  validateNesting bodyContent fullText []

/-- Loop body of `validateTextDocument`'s `while (htmlRegex.exec(text))`
for one captured html content: rule-2 cardinality checks, then the head
and body content validators when the respective count is exactly 1. -/
def processHtml (content fullText : List Char) : List Diagnostic :=
  let headMatches := tagPairs headTag content
  let bodyMatches := tagPairs bodyTag content
  (if headMatches.length = 1 then []
   else [cardinalityDiag fullText content headLit msgHeadCard]) ++
  (if bodyMatches.length = 1 then []
   else [cardinalityDiag fullText content bodyLit msgBodyCard]) ++
  (match headMatches with
   | [e] => validateHeadContent (extract content e.1 e.2.1) fullText
   | _ => []) ++
  (match bodyMatches with
   | [e] => validateBodyContent (extract content e.1 e.2.1) fullText
   | _ => [])

/-- Source `validateTextDocument`: the full diagnostic list of one
validation pass over `text` (rule 1, then every captured html content
processed in match order). -/
def validateTextDocument (text : List Char) : List Diagnostic :=
  rule1Start text ++ rule1End text ++
  (tagPairs htmlTag text).flatMap
    (fun e => processHtml (extract text (e.1 + e.2.2.1) e.2.2.2.1) text)

/-- Envelope of `connection.sendDiagnostics`: uri and version are
passed through unchanged next to the computed diagnostics. -/
structure PublishEnvelope where
  uri : String
  version : Nat
  diagnostics : List Diagnostic
deriving DecidableEq, Repr

/-- One full pass as observed by the client: validate the snapshot and
attach the document's identity. -/
def sendForDocument (uri : String) (version : Nat) (text : List Char) : PublishEnvelope :=
  ⟨uri, version, validateTextDocument text⟩

/-- Valid deeply nested div content: `n` opening `<div>` tags, the text
`x`, and `n` closing tags. -/
def nestDivL : Nat → List Char
  | 0 => "x".data
  | n + 1 => "<div>".data ++ nestDivL n ++ "</div>".data

/-! Concrete documents used by the claims. -/

/-- The spec's canonical well-formed document. -/
def docWellformed : List Char :=
  "<html><head><title>T</title></head><body><div><span>x</span></div></body></html>".data

/-- The spec's two-head document: the html content holds two head
blocks and one body block. -/
def docTwoHeads : List Char :=
  "<html><head><title>T</title><meta></head><head><title>U</title></head><body><div><span>x</span></div></body></html>".data

/-- A document whose matched body element has content `<p>hi</p>`. -/
def docBodyP : List Char :=
  "<html><head><title>T</title></head><body><p>hi</p></body></html>".data

/-- The matched body element of `docBodyP` (the string the source
passes to `validateBodyContent`). -/
def bodyPElement : List Char := "<body><p>hi</p></body>".data

/-- Title fragment of rule 5's example. -/
def fragTitle : List Char := "<title><b>bold</b></title>".data

/-- Span fragment of rule 6's example. -/
def fragSpan : List Char := "<span><div>x</div></span>".data

/-! Generic list helper shared by the rule-5/rule-6 characterizations. -/

/-- Emitting a singleton per element satisfying a test is the same as
filtering and mapping. -/
theorem flatMap_if_eq_filter_map {α β : Type} (l : List α) (f : α → List Char)
    (p : List Char → Bool) (g : List Char → β) :
    (l.flatMap (fun e => if p (f e) then [g (f e)] else [])) =
      ((l.map f).filter p).map g := by
  induction l with
  | nil => rfl
  | cons a t ih =>
    simp only [List.flatMap_cons, List.map_cons, List.filter_cons]
    cases hp : p (f a) <;> simp [hp, ih]

/-- C1: the claim says the validation pass produces the empty list for
the well-formed document; the code instead flags the matched head and
body elements' own tags, because each content validator scans the full
matched element string (including its `<head>`/`</head>` or
`<body>`/`</body>` delimiters), not just its inner text.  Evaluating
the embedded code at the document yields four containment diagnostics,
so the output is not empty. -/
theorem validateTextDocument_flags_wellformed :
    validateTextDocument docWellformed =
      [⟨1, ⟨⟨0, 0⟩, ⟨0, 6⟩⟩, msgHeadOnly⟩, ⟨1, ⟨⟨0, 0⟩, ⟨0, 7⟩⟩, msgHeadOnly⟩,
       ⟨1, ⟨⟨0, 0⟩, ⟨0, 6⟩⟩, msgBodyOnly⟩, ⟨1, ⟨⟨0, 0⟩, ⟨0, 7⟩⟩, msgBodyOnly⟩] ∧
    validateTextDocument docWellformed ≠ [] := by
  constructor
  · rfl
  · decide

/-- C2 counterexample: for the matched body element with content
`<p>hi</p>` the body content validator does not emit exactly one
diagnostic with the body containment message — it emits four (the
`<body>` and `</body>` delimiters and both `<p>` and `</p>` are
disallowed token occurrences). -/
theorem bodyContent_p_exactly_one_false :
    ¬ (((validateBodyContent bodyPElement docBodyP).filter
          (fun d => d.message = msgBodyOnly)).length = 1) := by
  decide

/-- C2 amended: for body content `<p>hi</p>` the body content validator
emits four diagnostics with message `<body> may contain only <div> or
<span> elements`, one per disallowed token occurrence in scan order —
for `<body>`, `<p>`, `</p>` and `</body>` — the second referencing the
`<p>` token (located at its first occurrence, spanning its 3-character
length). -/
theorem bodyContent_p_four_diagnostics :
    validateBodyContent bodyPElement docBodyP =
      [⟨1, ⟨⟨0, 0⟩, ⟨0, 6⟩⟩, msgBodyOnly⟩, ⟨1, ⟨⟨0, 0⟩, ⟨0, 3⟩⟩, msgBodyOnly⟩,
       ⟨1, ⟨⟨0, 0⟩, ⟨0, 4⟩⟩, msgBodyOnly⟩, ⟨1, ⟨⟨0, 0⟩, ⟨0, 7⟩⟩, msgBodyOnly⟩] := by
  rfl

/-- C3: whenever the trimmed text does not start with `<html>` the
output contains the rule-1-start diagnostic at (0,0)-(0,6), and
whenever it does not end with `</html>` the output contains the
rule-1-end diagnostic, anchored on the last line and covering its last
7 characters with the start column clamped at 0; the two checks are
independent, so both can fire on the same document. -/
theorem rule1_diagnostics_present (text : List Char) :
    ("<html>".data.isPrefixOf (jsTrim text) = false →
      (⟨1, ⟨⟨0, 0⟩, ⟨0, 6⟩⟩, msgStart⟩ : Diagnostic) ∈ validateTextDocument text) ∧
    ("</html>".data.isSuffixOf (jsTrim text) = false →
      endDiag text ∈ validateTextDocument text ∧
      endDiag text =
        ⟨1, ⟨⟨(splitLines text).length - 1, ((splitLines text).getLastD []).length - 7⟩,
             ⟨(splitLines text).length - 1, ((splitLines text).getLastD []).length⟩⟩, msgEnd⟩) := by
  constructor
  · intro h
    unfold validateTextDocument rule1Start
    rw [h]
    simp [startDiag]
  · intro h
    refine ⟨?_, rfl⟩
    unfold validateTextDocument rule1End
    rw [h]
    simp

/-- C3 witness: a document that neither starts with `<html>` nor ends
with `</html>` carries both rule-1 diagnostics. -/
theorem rule1_diagnostics_present_witness :
    ("<html>".data.isPrefixOf (jsTrim "foo".data) = false ∧
      (⟨1, ⟨⟨0, 0⟩, ⟨0, 6⟩⟩, msgStart⟩ : Diagnostic) ∈ validateTextDocument "foo".data) ∧
    ("</html>".data.isSuffixOf (jsTrim "foo".data) = false ∧
      endDiag "foo".data ∈ validateTextDocument "foo".data) :=
  ⟨⟨by decide, (rule1_diagnostics_present "foo".data).1 (by decide)⟩,
   ⟨by decide, ((rule1_diagnostics_present "foo".data).2 (by decide)).1⟩⟩

/-- C5: the rule-5 block emits one diagnostic exactly for each
title-pair match whose (re-extracted) inner text contains `<`, located
at the first occurrence of the exact title-pair substring in the full
document; and for the fragment `<title><b>bold</b></title>` the nesting
validator emits exactly one diagnostic `<title> can contain only
text`. -/
theorem title_text_only_rule :
    (∀ content fullText, rule5Diags content fullText =
      (((tagPairs titleTag content).map (fun e => extract content e.1 e.2.1)).filter
          titleMatchBad).map (fun tm => elementDiag fullText tm msgTitleText)) ∧
    validateNesting fragTitle fragTitle [] = [⟨1, ⟨⟨0, 0⟩, ⟨0, 26⟩⟩, msgTitleText⟩] := by
  constructor
  · intro content fullText
    exact flatMap_if_eq_filter_map (tagPairs titleTag content)
      (fun e => extract content e.1 e.2.1) titleMatchBad
      (fun tm => elementDiag fullText tm msgTitleText)
  · rfl

/-- C6: the rule-6 block emits one diagnostic exactly for each
span-pair match whose (re-extracted) inner text contains a `div`
opening tag; the block runs again inside every recursive call (the
unfolding equation shows every level of the div/span recursion applies
it); and for the fragment `<span><div>x</div></span>` the nesting
validator emits exactly one diagnostic `<span> cannot contain <div>
elements`. -/
theorem span_no_div_rule :
    (∀ content fullText, rule6Diags content fullText =
      (((tagPairs spanTag content).map (fun e => extract content e.1 e.2.1)).filter
          spanMatchBad).map (fun sm => elementDiag fullText sm msgSpanDiv)) ∧
    (∀ fuel content fullText context,
      validateNestingF (fuel + 1) content fullText context =
        rule5Diags content fullText ++
        rule6Diags content fullText ++
        ((tagPairs divTag content).flatMap
          (fun e =>
            match pairInnerOf divTag (extract content e.1 e.2.1) with
            | some inner => validateNestingF fuel inner fullText (context ++ ["div"])
            | none => [])) ++
        ((tagPairs spanTag content).flatMap
          (fun e =>
            match pairInnerOf spanTag (extract content e.1 e.2.1) with
            | some inner => validateNestingF fuel inner fullText (context ++ ["span"])
            | none => []))) ∧
    validateNesting fragSpan fragSpan [] = [⟨1, ⟨⟨0, 0⟩, ⟨0, 25⟩⟩, msgSpanDiv⟩] := by
  refine ⟨?_, fun _ _ _ _ => rfl, rfl⟩
  intro content fullText
  exact flatMap_if_eq_filter_map (tagPairs spanTag content)
    (fun e => extract content e.1 e.2.1) spanMatchBad
    (fun sm => elementDiag fullText sm msgSpanDiv)

/-- C7: in both content validators a tag token containing `/>` is
exempt from the disallowed-name check — the per-token check returns no
diagnostic for it, whatever its name, so no head-content or
body-content diagnostic is ever emitted for a self-closing token. -/
theorem self_closing_tokens_exempt (fullText element : List Char)
    (h : containsSub slashGt element = true) :
    headTokenDiag fullText element = none ∧ bodyTokenDiag fullText element = none := by
  constructor <;>
    simp only [headTokenDiag, bodyTokenDiag] <;>
    cases tokenName element <;>
    simp [h]

/-- C7 witness: the self-closing token `<br/>` (a disallowed name in
both contexts) produces no diagnostic from either per-token check. -/
theorem self_closing_tokens_exempt_witness :
    containsSub slashGt "<br/>".data = true ∧
    headTokenDiag [] "<br/>".data = none ∧ bodyTokenDiag [] "<br/>".data = none :=
  ⟨by decide, (self_closing_tokens_exempt [] "<br/>".data (by decide)).1,
    (self_closing_tokens_exempt [] "<br/>".data (by decide)).2⟩

/-- C8: the validation pass is a total function, and it is fail-open:
when the tolerant html tag-pair scan finds no match, rules 2-7
contribute nothing and the output is exactly the rule-1 diagnostics,
hence at most two diagnostics.  (The source's top-level try/catch never
fires in this pure model; its role is exactly to keep the pass total.) -/
theorem validation_fail_open (text : List Char) (h : tagPairs htmlTag text = []) :
    validateTextDocument text = rule1Start text ++ rule1End text ∧
    (validateTextDocument text).length ≤ 2 := by
  have e : validateTextDocument text = rule1Start text ++ rule1End text := by
    unfold validateTextDocument
    rw [h]
    simp
  refine ⟨e, ?_⟩
  rw [e]
  unfold rule1Start rule1End
  split <;> split <;> simp

/-- C8 witness: a non-HTML text has no html pair match, and its pass
returns only the two rule-1 diagnostics. -/
theorem validation_fail_open_witness :
    tagPairs htmlTag "hello".data = [] ∧
    validateTextDocument "hello".data = rule1Start "hello".data ++ rule1End "hello".data ∧
    (validateTextDocument "hello".data).length ≤ 2 :=
  ⟨by decide, (validation_fail_open "hello".data (by decide)).1,
    (validation_fail_open "hello".data (by decide)).2⟩

/-- C10: validation is a deterministic pure function of the document
text — the diagnostics of a pass depend only on the text, so two runs
(even under different uri/version envelopes) produce identical
diagnostic lists, equal in content and order. -/
theorem validation_deterministic (u1 u2 : String) (v1 v2 : Nat) (text : List Char) :
    (sendForDocument u1 v1 text).diagnostics = (sendForDocument u2 v2 text).diagnostics :=
  rfl

/-! Message inventory: which messages each validator can emit.  Used to
separate the rule-2 cardinality diagnostics from all others. -/

/-- Any diagnostic produced by the head per-token check carries the
head containment message. -/
theorem headTokenDiag_message {fullText element : List Char} {d : Diagnostic}
    (h : headTokenDiag fullText element = some d) : d.message = msgHeadOnly := by
  unfold headTokenDiag at h
  rcases hn : tokenName element with _ | nm <;> rw [hn] at h
  · exact absurd h (by simp)
  · dsimp only at h
    split at h
    · exact absurd h (by simp)
    · split at h
      · exact absurd h (by simp)
      · injection h with h2
        rw [← h2]
        rfl

/-- Any diagnostic produced by the body per-token check carries the
body containment message. -/
theorem bodyTokenDiag_message {fullText element : List Char} {d : Diagnostic}
    (h : bodyTokenDiag fullText element = some d) : d.message = msgBodyOnly := by
  unfold bodyTokenDiag at h
  rcases hn : tokenName element with _ | nm <;> rw [hn] at h
  · exact absurd h (by simp)
  · dsimp only at h
    split at h
    · exact absurd h (by simp)
    · split at h
      · exact absurd h (by simp)
      · injection h with h2
        rw [← h2]
        rfl

/-- Any diagnostic of the head content validator carries the head
containment message. -/
theorem mem_validateHeadContent_message {hc ft : List Char} {d : Diagnostic}
    (h : d ∈ validateHeadContent hc ft) : d.message = msgHeadOnly := by
  unfold validateHeadContent at h
  rw [List.mem_filterMap] at h
  obtain ⟨e, _, he⟩ := h
  exact headTokenDiag_message he

/-- Any rule-5 diagnostic carries the title message. -/
theorem mem_rule5Diags_message {c ft : List Char} {d : Diagnostic}
    (h : d ∈ rule5Diags c ft) : d.message = msgTitleText := by
  have e1 : rule5Diags c ft =
      (((tagPairs titleTag c).map (fun e => extract c e.1 e.2.1)).filter titleMatchBad).map
        (fun tm => elementDiag ft tm msgTitleText) :=
    flatMap_if_eq_filter_map (tagPairs titleTag c) (fun e => extract c e.1 e.2.1)
      titleMatchBad (fun tm => elementDiag ft tm msgTitleText)
  rw [e1, List.mem_map] at h
  obtain ⟨tm, _, rfl⟩ := h
  rfl

/-- Any rule-6 diagnostic carries the span message. -/
theorem mem_rule6Diags_message {c ft : List Char} {d : Diagnostic}
    (h : d ∈ rule6Diags c ft) : d.message = msgSpanDiv := by
  have e1 : rule6Diags c ft =
      (((tagPairs spanTag c).map (fun e => extract c e.1 e.2.1)).filter spanMatchBad).map
        (fun sm => elementDiag ft sm msgSpanDiv) :=
    flatMap_if_eq_filter_map (tagPairs spanTag c) (fun e => extract c e.1 e.2.1)
      spanMatchBad (fun sm => elementDiag ft sm msgSpanDiv)
  rw [e1, List.mem_map] at h
  obtain ⟨sm, _, rfl⟩ := h
  rfl

/-- Any diagnostic of the nesting validator carries the title or the
span message. -/
theorem mem_validateNestingF_message : ∀ {fuel : Nat} {c ft : List Char} {ctx : List String}
    {d : Diagnostic}, d ∈ validateNestingF fuel c ft ctx →
    d.message = msgTitleText ∨ d.message = msgSpanDiv := by
  intro fuel
  induction fuel with
  | zero => intro c ft ctx d h; simp [validateNestingF] at h
  | succ n ih =>
    intro c ft ctx d h
    simp only [validateNestingF] at h
    rw [List.mem_append, List.mem_append, List.mem_append] at h
    rcases h with ((h | h) | h) | h
    · exact Or.inl (mem_rule5Diags_message h)
    · exact Or.inr (mem_rule6Diags_message h)
    · rw [List.mem_flatMap] at h
      obtain ⟨e, _, he⟩ := h
      rcases hp : pairInnerOf divTag (extract c e.1 e.2.1) with _ | inner <;> rw [hp] at he
      · exact absurd he (by simp)
      · exact ih he
    · rw [List.mem_flatMap] at h
      obtain ⟨e, _, he⟩ := h
      rcases hp : pairInnerOf spanTag (extract c e.1 e.2.1) with _ | inner <;> rw [hp] at he
      · exact absurd he (by simp)
      · exact ih he

/-- Any diagnostic of the body content validator carries the body
containment, title, or span message. -/
theorem mem_validateBodyContent_message {bc ft : List Char} {d : Diagnostic}
    (h : d ∈ validateBodyContent bc ft) :
    d.message = msgBodyOnly ∨ d.message = msgTitleText ∨ d.message = msgSpanDiv := by
  unfold validateBodyContent at h
  rw [List.mem_append] at h
  rcases h with h | h
  · rw [List.mem_filterMap] at h
    obtain ⟨e, _, he⟩ := h
    exact Or.inl (bodyTokenDiag_message he)
  · unfold validateNesting at h
    rcases mem_validateNestingF_message h with h | h
    · exact Or.inr (Or.inl h)
    · exact Or.inr (Or.inr h)


/-- Helper for C4: the head cardinality message appears among the
diagnostics of a processed html content exactly when the head-pair
count differs from 1. -/
theorem processHtml_headCard_iff (content fullText : List Char) :
    msgHeadCard ∈ (processHtml content fullText).map Diagnostic.message ↔
      (tagPairs headTag content).length ≠ 1 := by
  rw [List.mem_map]
  unfold processHtml
  dsimp only
  constructor
  · rintro ⟨d, hd, hmsg⟩
    intro hl
    rw [if_pos hl] at hd
    rw [List.mem_append, List.mem_append, List.mem_append] at hd
    rcases hd with ((hd | hd) | hd) | hd
    · exact absurd hd (by simp)
    · split at hd
      · exact absurd hd (by simp)
      · have hm : d = cardinalityDiag fullText content bodyLit msgBodyCard := by
          simpa using hd
        have hbc : (cardinalityDiag fullText content bodyLit msgBodyCard).message = msgBodyCard := rfl
        rw [hm, hbc] at hmsg
        exact absurd hmsg (by decide)
    · split at hd
      · rw [mem_validateHeadContent_message hd] at hmsg
        exact absurd hmsg (by decide)
      · exact absurd hd (by simp)
    · split at hd
      · rcases mem_validateBodyContent_message hd with h | h | h <;>
          rw [h] at hmsg <;> exact absurd hmsg (by decide)
      · exact absurd hd (by simp)
  · intro hl
    refine ⟨cardinalityDiag fullText content headLit msgHeadCard, ?_, rfl⟩
    rw [if_neg hl]
    simp

/-- Helper for C4: the body cardinality message appears among the
diagnostics of a processed html content exactly when the body-pair
count differs from 1. -/
theorem processHtml_bodyCard_iff (content fullText : List Char) :
    msgBodyCard ∈ (processHtml content fullText).map Diagnostic.message ↔
      (tagPairs bodyTag content).length ≠ 1 := by
  rw [List.mem_map]
  unfold processHtml
  dsimp only
  constructor
  · rintro ⟨d, hd, hmsg⟩
    intro hl
    rw [List.mem_append, List.mem_append, List.mem_append] at hd
    rcases hd with ((hd | hd) | hd) | hd
    · split at hd
      · exact absurd hd (by simp)
      · have hm : d = cardinalityDiag fullText content headLit msgHeadCard := by
          simpa using hd
        have hhc : (cardinalityDiag fullText content headLit msgHeadCard).message = msgHeadCard := rfl
        rw [hm, hhc] at hmsg
        exact absurd hmsg (by decide)
    · rw [if_pos hl] at hd
      exact absurd hd (by simp)
    · split at hd
      · rw [mem_validateHeadContent_message hd] at hmsg
        exact absurd hmsg (by decide)
      · exact absurd hd (by simp)
    · split at hd
      · rcases mem_validateBodyContent_message hd with h | h | h <;>
          rw [h] at hmsg <;> exact absurd hmsg (by decide)
      · exact absurd hd (by simp)
  · intro hl
    refine ⟨cardinalityDiag fullText content bodyLit msgBodyCard, ?_, rfl⟩
    rw [if_neg hl]
    simp

/-- C4: inside a captured html content, head-pair and body-pair counts
are checked independently: the head (respectively body) cardinality
message appears among the diagnostics of that content exactly when the
respective pair count differs from 1.  For the two-head document the
whole pass emits exactly one head cardinality diagnostic — located via
the document-wide first occurrence of `<head` (line 0) as a
10-character range at column 0 — and no body cardinality diagnostic. -/
theorem cardinality_checks (content fullText : List Char) :
    ((msgHeadCard ∈ (processHtml content fullText).map Diagnostic.message ↔
        (tagPairs headTag content).length ≠ 1) ∧
      (msgBodyCard ∈ (processHtml content fullText).map Diagnostic.message ↔
        (tagPairs bodyTag content).length ≠ 1)) ∧
    (validateTextDocument docTwoHeads).filter (fun d => d.message = msgHeadCard) =
      [⟨1, ⟨⟨0, 0⟩, ⟨0, 10⟩⟩, msgHeadCard⟩] ∧
    (validateTextDocument docTwoHeads).filter (fun d => d.message = msgBodyCard) = [] :=
  ⟨⟨processHtml_headCard_iff content fullText, processHtml_bodyCard_iff content fullText⟩,
    by decide, by decide⟩

/-! Bounds on the anchored matchers and the scanner: a match never
reaches past the end of its input.  These feed the termination
argument of the nesting recursion (claim C9). -/

/-- The whitespace run is no longer than the input. -/
theorem wsCount_le (l : List Char) : wsCount l ≤ l.length := by
  induction l with
  | nil => simp [wsCount]
  | cons c t ih =>
    unfold wsCount
    split <;> simp only [List.length_cons] <;> omega

/-- A case-insensitive prefix is no longer than the input. -/
theorem ciMatch_le : ∀ {pat s : List Char}, ciMatch pat s = true → pat.length ≤ s.length := by
  intro pat
  induction pat with
  | nil => intro s _; simp
  | cons p ps ih =>
    intro s h
    cases s with
    | nil => simp [ciMatch] at h
    | cons c cs =>
      unfold ciMatch at h
      rw [Bool.and_eq_true] at h
      simpa [List.length_cons] using Nat.succ_le_succ (ih h.2)

/-- The first `>` lies inside the input. -/
theorem findGt_lt : ∀ {l : List Char} {k : Nat}, findGt l = some k → k < l.length := by
  intro l
  induction l with
  | nil => intro k h; simp [findGt] at h
  | cons c t ih =>
    intro k h
    unfold findGt at h
    split at h
    · injection h with h2
      simp [← h2]
    · rw [Option.map_eq_some'] at h
      obtain ⟨a, ha, hk⟩ := h
      have := ih ha
      simp only [List.length_cons]
      omega

/-- An opening-tag match is nonempty and lies inside the input. -/
theorem matchOpenAt_bound {tag : List Char} : ∀ {s : List Char} {o : Nat},
    matchOpenAt tag s = some o → 1 ≤ o ∧ o ≤ s.length := by
  intro s o h
  unfold matchOpenAt at h
  split at h
  case h_2 => exact absurd h (by simp)
  case h_1 r =>
    dsimp only at h
    split at h
    case isFalse => exact absurd h (by simp)
    case isTrue hci =>
      split at h
      case h_2 => exact absurd h (by simp)
      case h_1 k hk =>
        injection h with h2
        have hw := wsCount_le r
        have hc := ciMatch_le hci
        have hg := findGt_lt hk
        rw [List.length_drop] at hc
        rw [List.length_drop, List.length_drop] at hg
        simp only [List.length_cons]
        omega

/-- A closing-tag match is nonempty and lies inside the input. -/
theorem matchCloseAt_bound {tag : List Char} : ∀ {s : List Char} {c : Nat},
    matchCloseAt tag s = some c → 1 ≤ c ∧ c ≤ s.length := by
  intro s c h
  unfold matchCloseAt at h
  split at h
  case h_2 => exact absurd h (by simp)
  case h_1 r =>
    dsimp only at h
    split at h
    case h_2 => exact absurd h (by simp)
    case h_1 r2 hr2 =>
      split at h
      case isFalse => exact absurd h (by simp)
      case isTrue hci =>
        split at h
        case h_2 => exact absurd h (by simp)
        case h_1 c3 r5 hr5 =>
          injection h with h2
          have hw := wsCount_le r
          have hw2 := wsCount_le r2
          have hci' := ciMatch_le hci
          rw [List.length_drop] at hci'
          -- r.drop (wsCount r) = '/' :: r2, so r2 is shorter than r
          have hlen2 : r2.length + 1 ≤ r.length - wsCount r := by
            have := congrArg List.length hr2
            rw [List.length_drop] at this
            simp only [List.length_cons] at this
            omega
          -- r4.drop (wsCount r4) = '>' :: _ with r4 := (r2.drop (wsCount r2)).drop tag.length
          have hlen5 : 1 ≤ ((r2.drop (wsCount r2)).drop tag.length).length - wsCount ((r2.drop (wsCount r2)).drop tag.length) := by
            have := congrArg List.length hr5
            rw [List.length_drop] at this
            simp only [List.length_cons] at this
            omega
          have hw3 := wsCount_le ((r2.drop (wsCount r2)).drop tag.length)
          rw [List.length_drop, List.length_drop] at hlen5 hw3
          simp only [List.length_cons]
          omega

/-- Characterization of a successful leftmost search: the position is
at or after the start, within the input, and the matcher succeeds at
the found offset. -/
theorem firstMatchPos_some {α : Type} {m : List Char → Option α} :
    ∀ {s : List Char} {i p : Nat} {a : α},
    firstMatchPos m s i = some (p, a) →
    i ≤ p ∧ p - i ≤ s.length ∧ m (s.drop (p - i)) = some a := by
  intro s
  induction s with
  | nil =>
    intro i p a h
    unfold firstMatchPos at h
    split at h
    · rename_i a' hm
      injection h with h2
      rw [Prod.mk.injEq] at h2
      obtain ⟨hp, ha⟩ := h2
      subst hp
      subst ha
      exact ⟨le_refl _, by simp, by simpa using hm⟩
    · exact absurd h (by simp)
  | cons c t ih =>
    intro i p a h
    unfold firstMatchPos at h
    split at h
    · rename_i a' hm
      injection h with h2
      rw [Prod.mk.injEq] at h2
      obtain ⟨hp, ha⟩ := h2
      subst hp
      subst ha
      exact ⟨le_refl _, by simp, by simpa using hm⟩
    · obtain ⟨h1, h2, h3⟩ := ih h
      refine ⟨by omega, ?_, ?_⟩
      · simp only [List.length_cons]; omega
      · have hpi : p - i = (p - (i + 1)) + 1 := by omega
        rw [hpi]
        simpa using h3

/-- A tag-pair match decomposes into open + inner + close, has a
nonempty open and close part, and lies inside the input. -/
theorem pairMatchAt_bound {tag : List Char} {s : List Char} {t o j c : Nat}
    (h : pairMatchAt tag s = some (t, o, j, c)) :
    t = o + j + c ∧ 1 ≤ o ∧ 1 ≤ c ∧ t ≤ s.length := by
  unfold pairMatchAt at h
  split at h
  · exact absurd h (by simp)
  · rename_i o' ho
    split at h
    · exact absurd h (by simp)
    · rename_i j' c' hfc
      injection h with h2
      rw [Prod.mk.injEq] at h2
      obtain ⟨ht, h2⟩ := h2
      rw [Prod.mk.injEq] at h2
      obtain ⟨ho', h2⟩ := h2
      rw [Prod.mk.injEq] at h2
      obtain ⟨hj', hc'⟩ := h2
      subst ht; subst ho'; subst hj'; subst hc'
      obtain ⟨ho1, ho2⟩ := matchOpenAt_bound ho
      obtain ⟨hf1, hf2, hf3⟩ := firstMatchPos_some hfc
      obtain ⟨hc1, hc2⟩ := matchCloseAt_bound hf3
      rw [List.length_drop] at hf2
      rw [List.drop_drop, List.length_drop] at hc2
      simp only [Nat.sub_zero] at hf2 hf3 hc2 ⊢
      exact ⟨by trivial, ho1, hc1, by omega⟩

/-- Every scanner entry records a match of the matcher at its position,
and the match lies inside the scanned text. -/
theorem jsScanF_mem {α : Type} {m : List Char → Option (Nat × α)}
    (hm : ∀ t l a, m t = some (l, a) → l ≤ t.length) :
    ∀ {fuel : Nat} {s : List Char} {i p l : Nat} {a : α},
    (p, l, a) ∈ jsScanF m fuel s i →
    i ≤ p ∧ p + l ≤ i + s.length ∧ m (s.drop (p - i)) = some (l, a) := by
  intro fuel
  induction fuel with
  | zero => intro s i p l a h; simp [jsScanF] at h
  | succ n ih =>
    intro s i p l a h
    cases s with
    | nil =>
      unfold jsScanF at h
      split at h
      · rename_i len a' hms
        rw [List.mem_singleton, Prod.mk.injEq] at h
        obtain ⟨hp, h0⟩ := h
        rw [Prod.mk.injEq] at h0
        obtain ⟨hl, ha⟩ := h0
        subst hp; subst hl; subst ha
        exact ⟨le_refl _, by simpa using hm _ _ _ hms, by simpa using hms⟩
      · simp at h
    | cons c tl =>
      unfold jsScanF at h
      split at h
      · rename_i len a' hms
        split at h
        · rename_i hlen
          rcases List.mem_cons.mp h with h0 | h0
          · rw [Prod.mk.injEq] at h0
            obtain ⟨hp, h0⟩ := h0
            rw [Prod.mk.injEq] at h0
            obtain ⟨hl, ha⟩ := h0
            subst hp; subst hl; subst ha
            exact ⟨le_refl _, by simpa using hm _ _ _ hms, by simpa using hms⟩
          · obtain ⟨h1, h2, h3⟩ := ih h0
            refine ⟨by omega, by simp only [List.length_cons]; omega, ?_⟩
            have hpi : p - i = (p - (i + 1)) + 1 := by omega
            rw [hpi]
            simpa using h3
        · rename_i hlen
          rcases List.mem_cons.mp h with h0 | h0
          · rw [Prod.mk.injEq] at h0
            obtain ⟨hp, h0⟩ := h0
            rw [Prod.mk.injEq] at h0
            obtain ⟨hl, ha⟩ := h0
            subst hp; subst hl; subst ha
            exact ⟨le_refl _, by simpa using hm _ _ _ hms, by simpa using hms⟩
          · obtain ⟨h1, h2, h3⟩ := ih h0
            have hlen' := hm _ _ _ hms
            refine ⟨by omega, ?_, ?_⟩
            · rw [List.length_drop] at h2
              simp only [List.length_cons] at hlen' h2 ⊢
              omega
            · rw [List.drop_drop] at h3
              have hpi : len + (p - (i + len)) = p - i := by omega
              rw [hpi] at h3
              exact h3
      · obtain ⟨h1, h2, h3⟩ := ih h
        refine ⟨by omega, by simp only [List.length_cons]; omega, ?_⟩
        have hpi : p - i = (p - (i + 1)) + 1 := by omega
        rw [hpi]
        simpa using h3

/-- The pair matcher never returns a zero-length match. -/
theorem pairMatchAt_len_le {tag : List Char} : ∀ (t : List Char) (l : Nat)
    (a : Nat × Nat × Nat), pairMatchAt tag t = some (l, a) → l ≤ t.length := by
  intro t l a h
  obtain ⟨e, _⟩ := a
  obtain ⟨h1, _, _, h4⟩ := pairMatchAt_bound h
  exact h4

/-- Every tag-pair entry lies inside the scanned text and records a
pair match at its position. -/
theorem tagPairs_mem {tag s : List Char} {p t o j c : Nat}
    (h : (p, t, o, j, c) ∈ tagPairs tag s) :
    p + t ≤ s.length ∧ pairMatchAt tag (s.drop p) = some (t, o, j, c) := by
  have := jsScanF_mem (fun t l a hh => pairMatchAt_len_le t l a hh) h
  obtain ⟨h1, h2, h3⟩ := this
  simp only [Nat.zero_add, Nat.sub_zero] at h2 h3
  exact ⟨by omega, h3⟩

/-- The re-extracted inner group of a pair match inside `wm` is at
least two characters shorter than `wm`. -/
theorem pairInnerOf_shrink {tag wm inner : List Char}
    (h : pairInnerOf tag wm = some inner) : inner.length + 2 ≤ wm.length := by
  unfold pairInnerOf firstPair at h
  rw [Option.map_eq_some'] at h
  obtain ⟨⟨q, t, o, j, c⟩, hq, he⟩ := h
  obtain ⟨h1, h2, h3⟩ := firstMatchPos_some hq
  obtain ⟨ht, ho1, hc1, htl⟩ := pairMatchAt_bound h3
  rw [List.length_drop] at htl
  subst he
  simp only [extract, List.length_take, List.length_drop]
  simp only [Nat.sub_zero] at h2 htl
  omega

/-- Claim C9's shrink property: the inner fragment handed to each
recursive call of the nesting validator is strictly shorter than the
fragment of its caller. -/
theorem recursion_inner_lt {tag content : List Char} {e : Nat × Nat × Nat × Nat × Nat}
    (he : e ∈ tagPairs tag content) {inner : List Char}
    (h : pairInnerOf tag (extract content e.1 e.2.1) = some inner) :
    inner.length < content.length := by
  obtain ⟨p, t, o, j, c⟩ := e
  obtain ⟨hb, _⟩ := tagPairs_mem he
  have hs := pairInnerOf_shrink h
  simp only [extract, List.length_take, List.length_drop] at hs
  omega

/-- Fuel independence of the bounded nesting recursion: any fuel beyond
the fragment length produces the same result, because each recursive
call strictly shrinks the fragment.  This is the formal content of the
source recursion's termination. -/
theorem validateNestingF_fuel_indep : ∀ (n : Nat) (c : List Char), c.length ≤ n →
    ∀ (f1 f2 : Nat), c.length < f1 → c.length < f2 →
    ∀ (ft : List Char) (ctx : List String),
    validateNestingF f1 c ft ctx = validateNestingF f2 c ft ctx := by
  intro n
  induction n using Nat.strong_induction_on with
  | _ n ih =>
    intro c hc f1 f2 h1 h2 ft ctx
    cases f1 with
    | zero => omega
    | succ a =>
      cases f2 with
      | zero => omega
      | succ b =>
        simp only [validateNestingF]
        have hdiv : (tagPairs divTag c).flatMap
              (fun e =>
                match pairInnerOf divTag (extract c e.1 e.2.1) with
                | some inner => validateNestingF a inner ft (ctx ++ ["div"])
                | none => []) =
            (tagPairs divTag c).flatMap
              (fun e =>
                match pairInnerOf divTag (extract c e.1 e.2.1) with
                | some inner => validateNestingF b inner ft (ctx ++ ["div"])
                | none => []) := by
          apply List.flatMap_congr
          intro e he
          rcases hp : pairInnerOf divTag (extract c e.1 e.2.1) with _ | inner
          · rfl
          · have hlt := recursion_inner_lt he hp
            exact ih inner.length (by omega) inner (le_refl _) a b (by omega) (by omega) ft
              (ctx ++ ["div"])
        have hspan : (tagPairs spanTag c).flatMap
              (fun e =>
                match pairInnerOf spanTag (extract c e.1 e.2.1) with
                | some inner => validateNestingF a inner ft (ctx ++ ["span"])
                | none => []) =
            (tagPairs spanTag c).flatMap
              (fun e =>
                match pairInnerOf spanTag (extract c e.1 e.2.1) with
                | some inner => validateNestingF b inner ft (ctx ++ ["span"])
                | none => []) := by
          apply List.flatMap_congr
          intro e he
          rcases hp : pairInnerOf spanTag (extract c e.1 e.2.1) with _ | inner
          · rfl
          · have hlt := recursion_inner_lt he hp
            exact ih inner.length (by omega) inner (le_refl _) a b (by omega) (by omega) ft
              (ctx ++ ["span"])
        rw [hdiv, hspan]

/-! Character-level invariant used to settle the deep-nesting example:
`ltFollowB p s` holds when every `<` in `s` is immediately followed by
a character satisfying `p`.  On such strings the tolerant tag matchers
are predictable: an opening tag whose name starts with a letter not
reachable from `p` can never match, nor can a closing tag when `p`
excludes `/`. -/

/-- Every `<` in the string is immediately followed (inside the
string) by a character satisfying `p`. -/
def ltFollowB (p : Char → Bool) : List Char → Bool
  | [] => true
  | c :: t =>
    (if c = '<' then
       match t with
       | [] => false
       | c2 :: _ => p c2
     else true) && ltFollowB p t

/-- The invariant passes to the tail. -/
theorem ltFollowB_tail {p : Char → Bool} {c : Char} {t : List Char}
    (h : ltFollowB p (c :: t) = true) : ltFollowB p t = true := by
  unfold ltFollowB at h
  rw [Bool.and_eq_true] at h
  exact h.2

/-- The invariant is closed under concatenation. -/
theorem ltFollowB_append {p : Char → Bool} : ∀ {a b : List Char},
    ltFollowB p a = true → ltFollowB p b = true → ltFollowB p (a ++ b) = true := by
  intro a
  induction a with
  | nil => intro b _ hb; simpa
  | cons c t ih =>
    intro b ha hb
    have h2 := ltFollowB_tail ha
    unfold ltFollowB at ha
    rw [Bool.and_eq_true] at ha
    obtain ⟨h1, _⟩ := ha
    rw [List.cons_append]
    unfold ltFollowB
    rw [Bool.and_eq_true]
    refine ⟨?_, ih h2 hb⟩
    by_cases hc : c = '<'
    · rw [if_pos hc] at h1 ⊢
      cases t with
      | nil => simp at h1
      | cons c2 t2 =>
        rw [List.cons_append]
        exact h1
    · rw [if_neg hc]

/-- The invariant is closed under `drop`. -/
theorem ltFollowB_drop {p : Char → Bool} : ∀ (k : Nat) {s : List Char},
    ltFollowB p s = true → ltFollowB p (s.drop k) = true := by
  intro k
  induction k with
  | zero => intro s h; simpa
  | succ n ih =>
    intro s h
    cases s with
    | nil => simpa using h
    | cons c t => exact ih (ltFollowB_tail h)

/-- The invariant is monotone in the follower predicate. -/
theorem ltFollowB_mono {p q : Char → Bool} (hpq : ∀ c, p c = true → q c = true) :
    ∀ {s : List Char}, ltFollowB p s = true → ltFollowB q s = true := by
  intro s
  induction s with
  | nil => intro h; rfl
  | cons c t ih =>
    intro h
    have h2 := ltFollowB_tail h
    unfold ltFollowB at h ⊢
    rw [Bool.and_eq_true] at h ⊢
    obtain ⟨h1, _⟩ := h
    refine ⟨?_, ih h2⟩
    by_cases hc : c = '<'
    · rw [if_pos hc] at h1 ⊢
      cases t with
      | nil => simp at h1
      | cons c2 t2 => exact hpq c2 h1
    · rw [if_neg hc]

/-- An opening tag whose name starts with `t0` cannot match on an
invariant string whose followers never lower-case to `t0`. -/
theorem matchOpenAt_none_inv {p : Char → Bool} {t0 : Char} {tagR : List Char}
    (hp : ∀ ch, p ch = true → jsWS ch = false ∧ Char.toLower ch ≠ t0) :
    ∀ {s : List Char}, ltFollowB p s = true → matchOpenAt (t0 :: tagR) s = none := by
  intro s hs
  cases s with
  | nil => rfl
  | cons c r =>
    by_cases hc : c = '<'
    · subst hc
      unfold ltFollowB at hs
      rw [Bool.and_eq_true] at hs
      obtain ⟨h1, _⟩ := hs
      rw [if_pos rfl] at h1
      cases r with
      | nil => simp at h1
      | cons c2 r2 =>
        obtain ⟨hws, hlow⟩ := hp c2 h1
        have hw : wsCount (c2 :: r2) = 0 := by
          unfold wsCount
          simp [hws]
        have hci : ciMatch (t0 :: tagR) (c2 :: r2) = false := by
          simp [ciMatch, hlow]
        unfold matchOpenAt
        split
        · rename_i r heq
          injection heq with _ e2
          subst e2
          rw [hw]
          simp only [List.drop_zero]
          rw [hci]
          simp
        · rfl
    · unfold matchOpenAt
      split
      · rename_i r' heq
        injection heq with e1 _
        exact absurd e1 hc
      · rfl

/-- A closing tag cannot match on an invariant string whose followers
exclude `/`. -/
theorem matchCloseAt_none_inv {p : Char → Bool} {tag : List Char}
    (hp : ∀ ch, p ch = true → jsWS ch = false ∧ ch ≠ '/') :
    ∀ {s : List Char}, ltFollowB p s = true → matchCloseAt tag s = none := by
  intro s hs
  cases s with
  | nil => rfl
  | cons c r =>
    by_cases hc : c = '<'
    · subst hc
      unfold ltFollowB at hs
      rw [Bool.and_eq_true] at hs
      obtain ⟨h1, _⟩ := hs
      rw [if_pos rfl] at h1
      cases r with
      | nil => simp at h1
      | cons c2 r2 =>
        obtain ⟨hws, hsl⟩ := hp c2 h1
        have hw : wsCount (c2 :: r2) = 0 := by
          unfold wsCount
          simp [hws]
        unfold matchCloseAt
        split
        · rename_i r heq
          injection heq with _ e2
          subst e2
          rw [hw]
          simp only [List.drop_zero]
          split
          · rename_i r2' heq2
            injection heq2 with e1 _
            exact absurd e1 hsl
          · rfl
        · rfl
    · unfold matchCloseAt
      split
      · rename_i r' heq
        injection heq with e1 _
        exact absurd e1 hc
      · rfl

/-- The leftmost search fails on an invariant string when the matcher
fails on every invariant string. -/
theorem firstMatchPos_none_inv {α : Type} {p : Char → Bool} {m : List Char → Option α}
    (hm : ∀ s, ltFollowB p s = true → m s = none) :
    ∀ {s : List Char} {i : Nat}, ltFollowB p s = true → firstMatchPos m s i = none := by
  intro s
  induction s with
  | nil =>
    intro i hs
    unfold firstMatchPos
    rw [hm [] hs]
  | cons c t ih =>
    intro i hs
    unfold firstMatchPos
    rw [hm _ hs]
    exact ih (ltFollowB_tail hs)

/-- A pair match needs its opening tag. -/
theorem pairMatchAt_none_noOpen {tag s : List Char} (h : matchOpenAt tag s = none) :
    pairMatchAt tag s = none := by
  unfold pairMatchAt
  rw [h]

/-- A pair match fails on an invariant string whose followers exclude
`/` (no closing tag can ever be found). -/
theorem pairMatchAt_none_noClose {p : Char → Bool} {tag : List Char}
    (hp : ∀ ch, p ch = true → jsWS ch = false ∧ ch ≠ '/')
    {s : List Char} (hs : ltFollowB p s = true) : pairMatchAt tag s = none := by
  have hfc : ∀ o : Nat, firstMatchPos (matchCloseAt tag) (s.drop o) 0 = none := fun o =>
    @firstMatchPos_none_inv _ p (matchCloseAt tag)
      (fun u hu => matchCloseAt_none_inv hp hu) (s.drop o) 0 (ltFollowB_drop o hs)
  unfold pairMatchAt
  split
  · rfl
  · rename_i o hmo
    split
    · rfl
    · rename_i j c hsome
      rw [hfc o] at hsome
      exact absurd hsome (by simp)

/-- The global scan returns no match on an invariant string when the
matcher fails on every invariant string. -/
theorem jsScanF_none_inv {α : Type} {p : Char → Bool} {m : List Char → Option (Nat × α)}
    (hm : ∀ s, ltFollowB p s = true → m s = none) :
    ∀ (fuel : Nat) {s : List Char} (i : Nat), ltFollowB p s = true →
    jsScanF m fuel s i = [] := by
  intro fuel
  induction fuel with
  | zero => intro s i _; rfl
  | succ n ih =>
    intro s i hs
    cases s with
    | nil =>
      unfold jsScanF
      rw [hm [] hs]
    | cons c t =>
      unfold jsScanF
      rw [hm _ hs]
      exact ih _ (ltFollowB_tail hs)

/-! The deep-nesting family of claim C9: `n` nested `div` elements
around the text `x`.  The follower predicates below instantiate the
invariant: inside such documents every `<` begins `<div>` or
`</div>`. -/

/-- Follower predicate: the next character is `d`. -/
def pD (c : Char) : Bool := c = 'd'

/-- Follower predicate: the next character is `d` or `/`. -/
def pDS (c : Char) : Bool := c = 'd' || c = '/'

/-- Follower predicate: the next character is `/`. -/
def pSl (c : Char) : Bool := c = '/'

/-- A `pD` follower is also a `pDS` follower. -/
theorem pD_to_pDS (c : Char) (h : pD c = true) : pDS c = true := by
  simp [pD] at h
  simp [pDS, h]

/-- A `pSl` follower is also a `pDS` follower. -/
theorem pSl_to_pDS (c : Char) (h : pSl c = true) : pDS c = true := by
  simp [pSl] at h
  simp [pDS, h]

/-- `pDS` followers exclude whitespace and (lower-cased) `t`. -/
theorem pDS_not_t (ch : Char) (h : pDS ch = true) :
    jsWS ch = false ∧ Char.toLower ch ≠ 't' := by
  rw [pDS, Bool.or_eq_true, decide_eq_true_eq, decide_eq_true_eq] at h
  rcases h with h | h <;> subst h <;> exact ⟨by decide, by decide⟩

/-- `pDS` followers exclude whitespace and (lower-cased) `s`. -/
theorem pDS_not_s (ch : Char) (h : pDS ch = true) :
    jsWS ch = false ∧ Char.toLower ch ≠ 's' := by
  rw [pDS, Bool.or_eq_true, decide_eq_true_eq, decide_eq_true_eq] at h
  rcases h with h | h <;> subst h <;> exact ⟨by decide, by decide⟩

/-- `pD` followers exclude whitespace and `/`. -/
theorem pD_not_slash (ch : Char) (h : pD ch = true) :
    jsWS ch = false ∧ ch ≠ '/' := by
  rw [pD, decide_eq_true_eq] at h
  subst h
  exact ⟨by decide, by decide⟩

/-- `pSl` followers exclude whitespace and (lower-cased) `d`. -/
theorem pSl_not_d (ch : Char) (h : pSl ch = true) :
    jsWS ch = false ∧ Char.toLower ch ≠ 'd' := by
  rw [pSl, decide_eq_true_eq] at h
  subst h
  exact ⟨by decide, by decide⟩

/-- The opening block `<div>`. -/
def odivL : List Char := "<div>".data

/-- The closing block `</div>`. -/
def cdivL : List Char := "</div>".data

/-- `n` concatenated copies of a block. -/
def repBlk : Nat → List Char → List Char
  | 0, _ => []
  | n + 1, blk => blk ++ repBlk n blk

/-- Length of a block repetition. -/
theorem repBlk_length (blk : List Char) : ∀ n, (repBlk n blk).length = n * blk.length := by
  intro n
  induction n with
  | zero => simp [repBlk]
  | succ k ih =>
    simp [repBlk, ih, Nat.succ_mul]
    omega

/-- A repetition can also be peeled from the right. -/
theorem repBlk_succ_right (blk : List Char) : ∀ n, repBlk (n + 1) blk = repBlk n blk ++ blk := by
  intro n
  induction n with
  | zero => simp [repBlk]
  | succ k ih =>
    show blk ++ repBlk (k + 1) blk = (blk ++ repBlk k blk) ++ blk
    rw [ih, ← List.append_assoc]

/-- Normal form of the nested document: opens, `x`, closes. -/
theorem nestDivL_eq : ∀ n, nestDivL n = repBlk n odivL ++ 'x' :: repBlk n cdivL := by
  intro n
  induction n with
  | zero => rfl
  | succ m ih =>
    show odivL ++ nestDivL m ++ cdivL = _
    rw [ih, repBlk_succ_right cdivL m]
    simp [repBlk, List.append_assoc]

/-- Length of the nested document. -/
theorem nestDivL_length : ∀ n, (nestDivL n).length = 11 * n + 1 := by
  intro n
  induction n with
  | zero => rfl
  | succ m ih =>
    show ("<div>".data ++ nestDivL m ++ "</div>".data).length = _
    simp only [List.length_append, ih, List.length_cons, List.length_nil]
    omega

/-- The nested document satisfies the `d`-or-`/` follower invariant. -/
theorem ltFollowB_pDS_nestDiv : ∀ n, ltFollowB pDS (nestDivL n) = true := by
  intro n
  induction n with
  | zero => decide
  | succ m ih =>
    have e : nestDivL (m + 1) = "<div>".data ++ (nestDivL m ++ "</div>".data) := by
      show "<div>".data ++ nestDivL m ++ "</div>".data = _
      simp [List.append_assoc]
    rw [e]
    exact ltFollowB_append (by decide) (ltFollowB_append ih (by decide))

/-- The open-only prefix with the text satisfies the `d` follower
invariant (it contains no `/` at all). -/
theorem ltFollowB_pD_opens : ∀ m, ltFollowB pD (repBlk m odivL ++ ['x']) = true := by
  intro m
  induction m with
  | zero => decide
  | succ k ih =>
    have e : repBlk (k + 1) odivL ++ ['x'] = odivL ++ (repBlk k odivL ++ ['x']) := by
      simp [repBlk, List.append_assoc]
    rw [e]
    exact ltFollowB_append (by decide) ih

/-- The close-only region satisfies the `/` follower invariant. -/
theorem ltFollowB_pSl_closes : ∀ m, ltFollowB pSl (repBlk m cdivL) = true := by
  intro m
  induction m with
  | zero => decide
  | succ k ih =>
    show ltFollowB pSl (cdivL ++ repBlk k cdivL) = true
    exact ltFollowB_append (by decide) ih

/-- No title pair exists in a `pDS`-invariant string. -/
theorem tagPairs_title_nil {s : List Char} (hs : ltFollowB pDS s = true) :
    tagPairs titleTag s = [] := by
  unfold tagPairs
  exact jsScanF_none_inv
    (fun u hu => pairMatchAt_none_noOpen (matchOpenAt_none_inv pDS_not_t hu)) _ _ hs

/-- No span pair exists in a `pDS`-invariant string. -/
theorem tagPairs_span_nil {s : List Char} (hs : ltFollowB pDS s = true) :
    tagPairs spanTag s = [] := by
  unfold tagPairs
  exact jsScanF_none_inv
    (fun u hu => pairMatchAt_none_noOpen (matchOpenAt_none_inv pDS_not_s hu)) _ _ hs

/-- No div pair exists in a `pD`-invariant string: opening tags may
match, but no closing tag can. -/
theorem tagPairs_div_nil_noClose {s : List Char} (hs : ltFollowB pD s = true) :
    tagPairs divTag s = [] := by
  unfold tagPairs
  exact jsScanF_none_inv (fun u hu => pairMatchAt_none_noClose pD_not_slash hu) _ _ hs

/-- One failing step of the leftmost search. -/
theorem firstMatchPos_cons_none {α : Type} {m : List Char → Option α} {c : Char}
    {t : List Char} (h : m (c :: t) = none) (i : Nat) :
    firstMatchPos m (c :: t) i = firstMatchPos m t (i + 1) := by
  conv_lhs => unfold firstMatchPos
  rw [h]

/-- A successful head step of the leftmost search. -/
theorem firstMatchPos_cons_some {α : Type} {m : List Char → Option α} {c : Char}
    {t : List Char} {a : α} (h : m (c :: t) = some a) (i : Nat) :
    firstMatchPos m (c :: t) i = some (i, a) := by
  conv_lhs => unfold firstMatchPos
  rw [h]

/-- The leftmost search skips a region on which the matcher fails
everywhere. -/
theorem firstMatchPos_append_none {α : Type} (m : List Char → Option α) :
    ∀ (a b : List Char) (i : Nat), (∀ k, k < a.length → m ((a ++ b).drop k) = none) →
    firstMatchPos m (a ++ b) i = firstMatchPos m b (i + a.length) := by
  intro a
  induction a with
  | nil => intro b i h; simp
  | cons c t ih =>
    intro b i h
    have h0 := h 0 (by simp)
    rw [List.drop_zero, List.cons_append] at h0
    rw [List.cons_append, firstMatchPos_cons_none h0 i]
    have h' : ∀ k, k < t.length → m ((t ++ b).drop k) = none := by
      intro k hk
      have := h (k + 1) (by simp only [List.length_cons]; omega)
      rw [List.cons_append] at this
      simpa using this
    rw [ih b (i + 1) h']
    congr 1
    simp only [List.length_cons]
    omega

/-- The div closing tag fails on a text character. -/
theorem matchCloseAt_div_x (t : List Char) : matchCloseAt divTag ('x' :: t) = none := rfl

/-- The div closing tag matches `</div>` with length 6. -/
theorem matchCloseAt_div_close (t : List Char) :
    matchCloseAt divTag ('<' :: '/' :: 'd' :: 'i' :: 'v' :: '>' :: t) = some 6 := rfl

/-- Inside the nested family, the first `</div>` after the opening
region sits right after the `m` remaining `<div>` blocks and the
text character. -/
theorem firstClose_div_skip : ∀ (m : Nat) (rest : List Char) (i : Nat),
    firstMatchPos (matchCloseAt divTag)
      (repBlk m odivL ++ 'x' :: '<' :: '/' :: 'd' :: 'i' :: 'v' :: '>' :: rest) i
      = some (i + (5 * m + 1), 6) := by
  intro m
  induction m with
  | zero =>
    intro rest i
    simp only [repBlk, List.nil_append]
    rw [firstMatchPos_cons_none (matchCloseAt_div_x _) i,
      firstMatchPos_cons_some (matchCloseAt_div_close rest) (i + 1)]
  | succ k ih =>
    intro rest i
    have e1 : repBlk (k + 1) odivL ++ 'x' :: '<' :: '/' :: 'd' :: 'i' :: 'v' :: '>' :: rest
        = odivL ++ (repBlk k odivL ++ 'x' :: '<' :: '/' :: 'd' :: 'i' :: 'v' :: '>' :: rest) := by
      simp [repBlk, List.append_assoc]
    rw [e1]
    rw [firstMatchPos_append_none (matchCloseAt divTag) odivL _ i
      (by
        intro k' hk'
        rw [show odivL.length = 5 from rfl] at hk'
        interval_cases k' <;> rfl)]
    rw [ih rest (i + odivL.length)]
    rw [show odivL.length = 5 from rfl]
    have e2 : i + 5 + (5 * k + 1) = i + (5 * (k + 1) + 1) := by omega
    rw [e2]

/-- Assembling a pair match from its open match and close search. -/
theorem pairMatchAt_eq_some {tag s : List Char} {o j c : Nat}
    (ho : matchOpenAt tag s = some o)
    (hc : firstMatchPos (matchCloseAt tag) (s.drop o) 0 = some (j, c)) :
    pairMatchAt tag s = some (o + j + c, o, j, c) := by
  unfold pairMatchAt
  split
  · rename_i hnone
    rw [ho] at hnone
    exact Option.noConfusion hnone
  · rename_i o' ho'
    rw [ho] at ho'
    injection ho' with e
    subst e
    split
    · rename_i hfc'
      rw [hc] at hfc'
      exact Option.noConfusion hfc'
    · rename_i j' c' hfc'
      rw [hc] at hfc'
      injection hfc' with e2
      rw [Prod.mk.injEq] at e2
      obtain ⟨ej, ec⟩ := e2
      subst ej
      subst ec
      rfl

/-- The unique div pair match of the nested document starts at its
head: open of length 5, lazy inner of length `5m + 1` (the remaining
opens and the text), and the innermost `</div>` as close. -/
theorem pairMatchAt_div_nest (m : Nat) :
    pairMatchAt divTag (nestDivL (m + 1)) = some (5 * m + 12, 5, 5 * m + 1, 6) := by
  have hopen : matchOpenAt divTag (nestDivL (m + 1)) = some 5 := rfl
  have e3 : (nestDivL (m + 1)).drop 5
      = repBlk m odivL ++ 'x' :: '<' :: '/' :: 'd' :: 'i' :: 'v' :: '>' :: repBlk m cdivL := by
    show nestDivL m ++ cdivL = _
    rw [nestDivL_eq m, List.append_assoc, List.cons_append, ← repBlk_succ_right]
    rfl
  have hfc : firstMatchPos (matchCloseAt divTag) ((nestDivL (m + 1)).drop 5) 0
      = some (0 + (5 * m + 1), 6) := by
    rw [e3]
    exact firstClose_div_skip m (repBlk m cdivL) 0
  have h := pairMatchAt_eq_some hopen hfc
  rw [h]
  have e4 : 0 + (5 * m + 1) = 5 * m + 1 := by omega
  rw [e4]
  have e5 : 5 + (5 * m + 1) + 6 = 5 * m + 12 := by omega
  rw [e5]

/-- A successful nonempty head step of the global scan. -/
theorem jsScanF_cons_some {α : Type} {m : List Char → Option (Nat × α)} {c : Char}
    {t : List Char} {len : Nat} {a : α} (h : m (c :: t) = some (len, a)) (hlen : ¬ len = 0)
    (fuel i : Nat) :
    jsScanF m (fuel + 1) (c :: t) i
      = (i, len, a) :: jsScanF m fuel ((c :: t).drop len) (i + len) := by
  conv_lhs => unfold jsScanF
  split
  · rename_i len' a' hms
    rw [h] at hms
    injection hms with e
    rw [Prod.mk.injEq] at e
    obtain ⟨e1, e2⟩ := e
    subst e1
    subst e2
    rw [if_neg hlen]
  · rename_i hms
    rw [h] at hms
    exact Option.noConfusion hms

/-- The global div-pair scan of the nested document finds exactly one
match, spanning the opens, the text, and the first (innermost)
`</div>`. -/
theorem tagPairs_div_nest (m : Nat) :
    tagPairs divTag (nestDivL (m + 1)) = [(0, 5 * m + 12, 5, 5 * m + 1, 6)] := by
  have hcons : nestDivL (m + 1) = '<' :: 'd' :: 'i' :: 'v' :: '>' :: (nestDivL m ++ cdivL) := rfl
  have hpm := pairMatchAt_div_nest m
  rw [hcons] at hpm
  unfold tagPairs
  conv_lhs => rw [hcons]
  rw [jsScanF_cons_some hpm (by omega) _ 0]
  have hdrop : ('<' :: 'd' :: 'i' :: 'v' :: '>' :: (nestDivL m ++ cdivL)).drop (5 * m + 12)
      = repBlk m cdivL := by
    rw [← hcons, nestDivL_eq (m + 1), List.drop_append_eq_append_drop]
    have hl : (repBlk (m + 1) odivL).length = 5 * m + 5 := by
      rw [repBlk_length, show odivL.length = 5 from rfl]
      omega
    rw [List.drop_eq_nil_of_le (by rw [hl]; omega), hl]
    have h7 : 5 * m + 12 - (5 * m + 5) = 7 := by omega
    rw [h7]
    rfl
  rw [hdrop]
  have hnil : jsScanF (pairMatchAt divTag)
      (('<' :: 'd' :: 'i' :: 'v' :: '>' :: (nestDivL m ++ cdivL)).length)
      (repBlk m cdivL) (0 + (5 * m + 12)) = [] :=
    @jsScanF_none_inv _ pSl (pairMatchAt divTag)
      (fun u hu => pairMatchAt_none_noOpen (matchOpenAt_none_inv pSl_not_d hu))
      _ _ _ (ltFollowB_pSl_closes m)
  rw [hnil]

/-- The matched element string of the nested document's unique div
pair: all opens, the text, and one `</div>`. -/
theorem extract_nest_whole (m : Nat) :
    extract (nestDivL (m + 1)) 0 (5 * m + 12) = repBlk (m + 1) odivL ++ 'x' :: cdivL := by
  unfold extract
  rw [List.drop_zero, nestDivL_eq (m + 1), List.take_append_eq_append_take]
  have hl : (repBlk (m + 1) odivL).length = 5 * m + 5 := by
    rw [repBlk_length, show odivL.length = 5 from rfl]
    omega
  rw [List.take_of_length_le (by rw [hl]; omega), hl]
  have h7 : 5 * m + 12 - (5 * m + 5) = 7 := by omega
  rw [h7]
  rfl

/-- Re-extracting the inner group from the matched element string gives
the remaining opens and the text. -/
theorem pairInner_nest (m : Nat) :
    pairInnerOf divTag (repBlk (m + 1) odivL ++ 'x' :: cdivL)
      = some (repBlk m odivL ++ ['x']) := by
  have hwm_cons : repBlk (m + 1) odivL ++ 'x' :: cdivL
      = '<' :: 'd' :: 'i' :: 'v' :: '>' :: (repBlk m odivL ++ 'x' :: cdivL) := rfl
  have hopen : matchOpenAt divTag (repBlk (m + 1) odivL ++ 'x' :: cdivL) = some 5 := rfl
  have hfc2 : firstMatchPos (matchCloseAt divTag)
      ((repBlk (m + 1) odivL ++ 'x' :: cdivL).drop 5) 0 = some (0 + (5 * m + 1), 6) := by
    have e : (repBlk (m + 1) odivL ++ 'x' :: cdivL).drop 5
        = repBlk m odivL ++ 'x' :: '<' :: '/' :: 'd' :: 'i' :: 'v' :: '>' :: ([] : List Char) :=
      rfl
    rw [e]
    exact firstClose_div_skip m [] 0
  have hpm2 := pairMatchAt_eq_some hopen hfc2
  unfold pairInnerOf firstPair
  rw [hwm_cons] at hpm2
  rw [hwm_cons, firstMatchPos_cons_some hpm2 0]
  rw [Option.map_some']
  have e2 : extract ('<' :: 'd' :: 'i' :: 'v' :: '>' :: (repBlk m odivL ++ 'x' :: cdivL))
      (0 + 5) (0 + (5 * m + 1)) = repBlk m odivL ++ ['x'] := by
    unfold extract
    simp only [Nat.zero_add]
    rw [show ('<' :: 'd' :: 'i' :: 'v' :: '>' :: (repBlk m odivL ++ 'x' :: cdivL)).drop 5
        = repBlk m odivL ++ 'x' :: cdivL from rfl]
    rw [List.take_append_eq_append_take]
    have hl : (repBlk m odivL).length = 5 * m := by
      rw [repBlk_length, show odivL.length = 5 from rfl]
      omega
    rw [List.take_of_length_le (by rw [hl]; omega), hl]
    have h1 : 5 * m + 1 - 5 * m = 1 := by omega
    rw [h1]
    rfl
  rw [e2]

/-- The nesting validator returns nothing on an opens-and-text
fragment: no title or span pair exists, and no div pair can close. -/
theorem validateNestingF_opens (m : Nat) (ft : List Char) (ctx : List String) (k : Nat) :
    validateNestingF (k + 1) (repBlk m odivL ++ ['x']) ft ctx = [] := by
  have hinv := ltFollowB_pD_opens m
  have hinvDS := ltFollowB_mono pD_to_pDS hinv
  simp only [validateNestingF]
  unfold rule5Diags rule6Diags
  rw [tagPairs_title_nil hinvDS, tagPairs_span_nil hinvDS, tagPairs_div_nil_noClose hinv]
  simp

/-- The nesting validator emits nothing on the deeply nested document,
at any depth `n`: the single div pair found at the top recurses once
into the opens-and-text fragment, which yields nothing. -/
theorem validateNestingF_nestDiv : ∀ (n : Nat) (ft : List Char) (ctx : List String) (k : Nat),
    validateNestingF (k + 2) (nestDivL n) ft ctx = [] := by
  intro n ft ctx k
  cases n with
  | zero => exact validateNestingF_opens 0 ft ctx (k + 1)
  | succ m =>
    have hDS := ltFollowB_pDS_nestDiv (m + 1)
    simp only [validateNestingF]
    unfold rule5Diags rule6Diags
    rw [tagPairs_title_nil hDS, tagPairs_span_nil hDS, tagPairs_div_nest m]
    simp only [List.flatMap_cons, List.flatMap_nil]
    rw [extract_nest_whole m, pairInner_nest m]
    dsimp only
    have hinv := ltFollowB_pD_opens m
    have hinvDS := ltFollowB_mono pD_to_pDS hinv
    rw [tagPairs_title_nil hinvDS, tagPairs_span_nil hinvDS, tagPairs_div_nil_noClose hinv]
    simp

/-- C9: the recursive nesting validator terminates on every input.
Each recursive call operates on an inner fragment strictly shorter
than its caller's fragment (first conjunct), so any recursion bound
beyond the fragment length yields the same diagnostics — the bounded
recursion is stable in its bound (second conjunct).  For arbitrarily
deep valid div nesting `nestDivL n` — in particular depths of a few
hundred — validation completes and emits zero diagnostics (third
conjunct). -/
theorem nesting_recursion_terminates (tag content : List Char)
    (e : Nat × Nat × Nat × Nat × Nat) (he : e ∈ tagPairs tag content)
    (inner : List Char) (hi : pairInnerOf tag (extract content e.1 e.2.1) = some inner) :
    inner.length < content.length ∧
    (∀ (f1 f2 : Nat) (c ft : List Char) (ctx : List String), c.length < f1 → c.length < f2 →
      validateNestingF f1 c ft ctx = validateNestingF f2 c ft ctx) ∧
    (∀ (n : Nat) (ft : List Char) (ctx : List String),
      validateNesting (nestDivL n) ft ctx = []) := by
  refine ⟨recursion_inner_lt he hi, ?_, ?_⟩
  · intro f1 f2 c ft ctx h1 h2
    exact validateNestingF_fuel_indep c.length c (le_refl _) f1 f2 h1 h2 ft ctx
  · intro n ft ctx
    unfold validateNesting
    rw [nestDivL_length n]
    exact validateNestingF_nestDiv n ft ctx (11 * n)

/-- C9 witness: the recursion facts at a concrete div pair, a concrete
pair of sufficient bounds, and nesting depth 300. -/
theorem nesting_recursion_terminates_witness :
    (0, 12, 5, 1, 6) ∈ tagPairs divTag "<div>x</div>".data ∧
    pairInnerOf divTag
        (extract "<div>x</div>".data ((0, 12, 5, 1, 6) : Nat × Nat × Nat × Nat × Nat).1
          ((0, 12, 5, 1, 6) : Nat × Nat × Nat × Nat × Nat).2.1) = some "x".data ∧
    ("x".data).length < ("<div>x</div>".data).length ∧
    validateNestingF 3 "ab".data [] [] = validateNestingF 9 "ab".data [] [] ∧
    validateNesting (nestDivL 300) [] [] = [] :=
  have h1 : (0, 12, 5, 1, 6) ∈ tagPairs divTag "<div>x</div>".data := by decide
  have h2 : pairInnerOf divTag
      (extract "<div>x</div>".data ((0, 12, 5, 1, 6) : Nat × Nat × Nat × Nat × Nat).1
        ((0, 12, 5, 1, 6) : Nat × Nat × Nat × Nat × Nat).2.1) = some "x".data := by decide
  have main := nesting_recursion_terminates divTag "<div>x</div>".data (0, 12, 5, 1, 6) h1
    "x".data h2
  ⟨h1, h2, main.1, main.2.1 3 9 "ab".data [] [] (by decide) (by decide), main.2.2 300 [] []⟩
